import Mathlib

/-!
Verification of the install-release asset-resolution and installation engine.

The definitions below are a shallow embedding of the Go sources:
  * the asset selector (`GetRelease`, `calculateAssetScore` and friends),
  * the executable finder (`FindExecutable`, `IsBinaryExecutable`),
  * the state manager (`Load` / `Save` / `Set`),
  * the `upgrade`, `get` and `hold` command pipelines.

Go `float64` scores are embedded as rationals, Go strings as Lean `String`
(operated on through their character lists), and file-system / network effects
as explicit data (oracle fields in environment records).  Functions whose
results depend on the running machine (`GetSystemInfo`) are parametrised by the
`os` / `arch` strings they would return.
-/

/-! ### String primitives (Go `strings` package operations) -/

/-- `frontOf p s` is true iff `p` is a prefix of `s` (Go `strings.HasPrefix s p`). -/
def frontOf : List Char → List Char → Bool
  | [], _ => true
  | _ :: _, [] => false
  | a :: p, b :: s => a == b && frontOf p s

/-- `subIn pat s` is true iff `pat` occurs as a contiguous substring of `s`
(Go `strings.Contains s pat`). -/
def subIn (pat : List Char) : List Char → Bool
  | [] => frontOf pat []
  | a :: t => frontOf pat (a :: t) || subIn pat t

/-- `clashes T c` holds when `T` and `c` disagree at some position before either
list is exhausted; it guarantees `T` is not a prefix of `c ++ anything`. -/
def clashes : List Char → List Char → Bool
  | [], _ => false
  | _, [] => false
  | a :: T, b :: c => !(a == b) || clashes T c

/-- `blockedB T c` holds when `T` clashes with every nonempty suffix of `c`,
so no occurrence of `T` in `c ++ ys` can start inside `c`. -/
def blockedB (T : List Char) : List Char → Bool
  | [] => true
  | b :: c => clashes T (b :: c) && blockedB T c

def goContains (s sub : String) : Bool := subIn sub.data s.data

def goHasSuffix (s suf : String) : Bool := frontOf suf.data.reverse s.data.reverse

def goHasPrefix (s pre : String) : Bool := frontOf pre.data s.data

def goToLower (s : String) : String := String.mk (s.data.map Char.toLower)

def goTrimSuffix (s suf : String) : String :=
  if goHasSuffix s suf then String.mk (s.data.take (s.data.length - suf.data.length)) else s

def goTrimSpace (s : String) : String :=
  String.mk (((s.data.dropWhile Char.isWhitespace).reverse.dropWhile Char.isWhitespace).reverse)

/-- Go `filepath.Base`: strip trailing slashes, then keep the part after the
last slash (`""` gives `"."`, all-slashes gives `"/"`). -/
def goBase (s : String) : String :=
  if s.data.isEmpty then "."
  else
    let t := (s.data.reverse.dropWhile (fun c => c == '/')).reverse
    if t.isEmpty then "/"
    else String.mk ((t.reverse.takeWhile (fun c => !(c == '/'))).reverse)

/-- Split a character list at every occurrence of `sep`
(Go `strings.Split` with a one-character separator). -/
def splitOnChar (sep : Char) : List Char → List (List Char)
  | [] => [[]]
  | a :: t =>
    let r := splitOnChar sep t
    if a == sep then [] :: r
    else match r with
      | [] => [[a]]
      | h :: t2 => (a :: h) :: t2

def goSplit (s : String) (sep : Char) : List String := (splitOnChar sep s.data).map String.mk

/-- Tool name recovered from a state key: the part after the last `#`
(`strings.Split(key, "#")` last element; the whole key when there is no `#`). -/
def keyToolName (key : String) : String := (goSplit key '#').getLastD key

/-! ### Data model (part_008 type definitions) -/

structure ReleaseAssets where
  browserDownloadURL : String
  contentType : String
  createdAt : String
  downloadCount : Int
  id : Int
  name : String
  nodeId : String
  size : Int
  state : String
  updatedAt : String
deriving DecidableEq, Repr

structure Release where
  url : String
  name : String
  tagName : String
  prerelease : Bool
  publishedAt : String
  assets : List ReleaseAssets
  holdUpdate : Bool
deriving DecidableEq, Repr

structure RepositoryInfo where
  name : String
  fullName : String
  htmlURL : String
  description : String
  language : String
  stargazersCount : Int
deriving DecidableEq, Repr

structure ToolConfig where
  token : String
  gitlabToken : String
  path : String
  preRelease : Bool
deriving DecidableEq, Repr

/-- The persisted state: a mapping from `url#name` keys to releases.
Go's `State` is a hash map; it is embedded as an association list. -/
abbrev StateData := List (String × Release)

/-- A state manager: the in-memory map and the contents of the state file. -/
structure SM where
  mem : StateData
  disk : StateData
deriving DecidableEq, Repr

/-! ### Asset selector (part_008) -/

def archAliases : String → Option (List String)
  | "x86_64" => some ["x86", "x64", "amd64", "amd", "x86_64"]
  | "aarch64" => some ["arm64", "aarch64", "arm"]
  | _ => none

def getPlatformPatterns (osName arch : String) : List String :=
  match archAliases arch with
  | some aliases => [goToLower osName] ++ aliases
  | none => [goToLower osName] ++ [goToLower arch]

/-- The full pattern list built in `calculateAssetScore`:
platform patterns, then the extra words, then the archive hints. -/
def allPatternsOf (os arch : String) (extraWords : List String) : List String :=
  (getPlatformPatterns os arch ++ extraWords) ++ ["tar", "zip"]

/-- Number of patterns occurring in the lower-cased asset name. -/
def assetMatchCount (asset : ReleaseAssets) (os arch : String) (extraWords : List String) : Nat :=
  (allPatternsOf os arch extraWords).countP
    (fun p => goContains (goToLower asset.name) (goToLower p))

def otherPlatforms : String → Option (List String)
  | "linux" => some ["windows", "darwin", "macos", "win32", "win64", ".exe"]
  | "darwin" => some ["windows", "linux", "win32", "win64", ".exe"]
  | "windows" => some ["linux", "darwin", "macos"]
  | _ => none

def otherArchs : String → Option (List String)
  | "x86_64" => some ["arm64", "aarch64", "arm", "i386", "i686"]
  | "aarch64" => some ["x86_64", "amd64", "x64", "i386", "i686"]
  | _ => none

def applyPlatformPenalties (score : ℚ) (asset : ReleaseAssets) (currentOS currentArch : String) : ℚ :=
  let name := goToLower asset.name
  let s1 := match otherPlatforms currentOS with
    | some exclusions => if exclusions.any (fun p => goContains name p) then score * (1 / 10) else score
    | none => score
  match otherArchs currentArch with
  | some exclusions => if exclusions.any (fun a => goContains name a) then s1 * (1 / 2) else s1
  | none => s1

def isExecutableAsset (asset : ReleaseAssets) : Bool :=
  let name := goToLower asset.name
  if [".exe", ".bin", ".app"].any (fun ext => goHasSuffix name ext) then true
  else if !(goContains (goBase name) ".") then true
  else if goContains asset.contentType "executable" || goContains asset.contentType "binary" then true
  else false

def isArchiveAsset (asset : ReleaseAssets) : Bool :=
  let name := goToLower asset.name
  [".tar.gz", ".tgz", ".zip", ".tar"].any (fun ext => goHasSuffix name ext)

def isPackageAsset (asset : ReleaseAssets) : Bool :=
  let name := goToLower asset.name
  [".deb", ".rpm", ".pkg", ".msi", ".dmg"].any (fun ext => goHasSuffix name ext)

def applyAssetBonusesAndPenalties (score : ℚ) (asset : ReleaseAssets) (name : String) : ℚ :=
  let s1 := if isArchiveAsset asset then score * 2
            else if isPackageAsset asset then score * (3 / 10)
            else score
  let s2 := if isExecutableAsset asset || isArchiveAsset asset then s1 + 1 / 5 else s1
  let s3 := if goContains name "debug" || goContains name "dbg" then s2 * (4 / 5) else s2
  if asset.size < 100 * 1024 * 1024 then s3 + 1 / 10 else s3

def calculateAssetScore (asset : ReleaseAssets) (os arch : String) (extraWords : List String) : ℚ :=
  let name := goToLower asset.name
  let matchCount := assetMatchCount asset os arch extraWords
  if matchCount = 0 then 0
  else
    let score : ℚ := (matchCount : ℚ) / ((allPatternsOf os arch extraWords).length : ℚ)
    let score := applyPlatformPenalties score asset os arch
    applyAssetBonusesAndPenalties score asset name

/-- Loop body of `GetRelease`: keep the asset on a strict score improvement. -/
def pickStep (f : ReleaseAssets → ℚ) (acc : Option ReleaseAssets × ℚ) (asset : ReleaseAssets) :
    Option ReleaseAssets × ℚ :=
  let score := f asset
  if acc.2 < score then (some asset, score) else acc

/-- `GetRelease` (part_008): iterate over all assets of all releases keeping the
strictly best score; `os`/`arch` stand for the `GetSystemInfo()` results. -/
def GetRelease (os arch : String) (releases : List Release) (repoURL : String)
    (extraWords : List String) : Except String ReleaseAssets :=
  match releases with
  | [] => Except.error "no releases found"
  | _ :: _ =>
    let best := releases.foldl
      (fun acc release => release.assets.foldl
        (pickStep (fun asset => calculateAssetScore asset os arch extraWords)) acc)
      ((none : Option ReleaseAssets), (0 : ℚ))
    match best.1 with
    | none => Except.error ("no suitable asset found for " ++ os ++ "/" ++ arch)
    | some bestAsset => Except.ok bestAsset

/-- All assets of all releases in iteration order. -/
def flatAssets (releases : List Release) : List ReleaseAssets :=
  (releases.map Release.assets).flatten

/-- Running maximum of scores with initial value `m` (the fold of `max`). -/
def listMaxQ (f : ReleaseAssets → ℚ) (m : ℚ) (l : List ReleaseAssets) : ℚ :=
  l.foldl (fun acc a => max acc (f a)) m

/-- All tokens the scoring heuristic ever substring-tests a filename against
beyond the match patterns (platform and architecture exclusions, debug markers). -/
def masterTokens : List String :=
  ["windows", "darwin", "macos", "win32", "win64", ".exe",
   "linux", "x86_64", "amd64", "x64", "i386", "i686", "arm64", "aarch64", "arm",
   "debug", "dbg"]

/-! ### Executable finder (gocode/state.go) -/

/-- One regular file of the extracted tree, in `filepath.Walk` order.
`content` holds the file's bytes; `regular`/`execBit` model
`info.Mode().IsRegular()` and `mode & 0111 != 0`. -/
structure FileEntry where
  path : String
  name : String
  content : List Nat
  regular : Bool
  execBit : Bool
deriving DecidableEq, Repr

/-- `IsBinaryExecutable`: true exactly on ELF / PE / Mach-O magic numbers.
The source's trailing printable-ASCII scan returns `false` on every path it
reaches, so it is embedded as the final `false`. -/
def IsBinaryExecutable (content : List Nat) : Bool :=
  let header := content.take 16
  let n := header.length
  if n < 4 then false
  else if header.getD 0 0 == 0x7F && header.getD 1 0 == 0x45 &&
          header.getD 2 0 == 0x4C && header.getD 3 0 == 0x46 then true
  else if header.getD 0 0 == 0x4D && header.getD 1 0 == 0x5A then true
  else
    let magic := header.getD 0 0 * 0x1000000 + header.getD 1 0 * 0x10000 +
                 header.getD 2 0 * 0x100 + header.getD 3 0
    if magic == 0xFEEDFACE || magic == 0xCEFAEDFE || magic == 0xFEEDFACF || magic == 0xCFFAEDFE
    then true
    else if header.getD 0 0 == 35 && header.getD 1 0 == 33 then false
    else false

/-- `IsExecutable`: a regular file with an executable permission bit. -/
def IsExecutable (f : FileEntry) : Bool := f.regular && f.execBit

/-- The name-based skip list at the top of `FindExecutable`'s walk callback. -/
def skipName (name : String) : Bool :=
  goHasSuffix name ".txt" || goHasSuffix name ".md" || goHasSuffix name ".json" ||
  goHasSuffix name ".yaml" || goHasSuffix name ".yml" || goHasSuffix name ".cfg" ||
  goHasSuffix name ".conf" || goHasSuffix name ".log" || goHasSuffix name ".LICENSE" ||
  goHasSuffix name "LICENSE" || goHasSuffix name "README" || goHasSuffix name ".tar.gz" ||
  goHasSuffix name ".zip" || goContains name ".1"

/-- The completion-script skip checks of `FindExecutable`'s walk callback. -/
def skipPath (path name : String) : Bool :=
  goContains path "completion/" || goContains path "/completion/" || goHasPrefix name "_"

/-- The `binaryExecutables` list accumulated by the walk, in walk order. -/
def binaryExecutablesOf (files : List FileEntry) : List FileEntry :=
  files.filter (fun f => !skipName f.name && !skipPath f.path f.name && IsBinaryExecutable f.content)

/-- The `executableFiles` list accumulated by the walk, in walk order. -/
def executableFilesOf (files : List FileEntry) : List FileEntry :=
  files.filter (fun f => !skipName f.name && !skipPath f.path f.name &&
    !IsBinaryExecutable f.content && IsExecutable f)

/-- Contribution of one walked file to `candidateFiles`: the walk callback has
three independent `if`s, so a file can be appended more than once. -/
def candidateEntries (f : FileEntry) : List FileEntry :=
  if skipName f.name || skipPath f.path f.name || IsBinaryExecutable f.content || IsExecutable f
  then []
  else
    (if !(goContains (goBase f.name) ".") then [f] else []) ++
    (if goHasSuffix f.name ".exe" || goHasSuffix f.name ".bin" || goHasSuffix f.name ".app"
     then [f] else []) ++
    (if goContains (goBase f.name) "-" &&
        (goContains (goBase f.name) "linux" || goContains (goBase f.name) "darwin" ||
         goContains (goBase f.name) "windows" || goContains (goBase f.name) "amd64" ||
         goContains (goBase f.name) "x86_64" || goContains (goBase f.name) "arm64")
     then [f] else [])

def candidateFilesOf (files : List FileEntry) : List FileEntry :=
  (files.map candidateEntries).flatten

/-- `FindExecutable` (gocode/state.go): tiered selection over the walked files.
The `os.Chmod` side effects of the third and fourth tiers are not modelled. -/
def FindExecutable (files : List FileEntry) : Except String String :=
  let binaryExecutables := binaryExecutablesOf files
  let executableFiles := executableFilesOf files
  let candidateFiles := candidateFilesOf files
  let allFiles := files
  match binaryExecutables with
  | g :: _ => Except.ok g.path
  | [] =>
    match executableFiles.find? (fun f => !goHasPrefix (goBase f.path) "_" &&
        !goContains f.path "completion" && !goContains f.path "bash_completion") with
    | some g => Except.ok g.path
    | none =>
      match candidateFiles.find? (fun f => IsBinaryExecutable f.content) with
      | some g => Except.ok g.path
      | none =>
        match allFiles with
        | [g] => if IsBinaryExecutable g.content then Except.ok g.path
                 else Except.error "no binary executable found in directory"
        | _ => Except.error "no binary executable found in directory"

/-! ### State manager (gocode/state.go) -/

/-- Go map assignment `state[key] = value` on the association-list embedding. -/
def insertState (st : StateData) (key : String) (value : Release) : StateData :=
  if st.any (fun kv => kv.1 == key) then
    st.map (fun kv => if kv.1 == key then (key, value) else kv)
  else st ++ [(key, value)]

/-- `StateManager.Save`: encode the in-memory map into the state file. -/
def smSave (sm : SM) : SM := { sm with disk := sm.mem }

/-- `StateManager.Set`: assign into the in-memory map, then call `Save`. -/
def smSet (sm : SM) (key : String) (value : Release) : SM :=
  smSave { sm with mem := insertState sm.mem key value }

instance exceptDecEq {ε α : Type} [DecidableEq ε] [DecidableEq α] : DecidableEq (Except ε α)
  | Except.error a, Except.error b =>
    if h : a = b then isTrue (by rw [h]) else isFalse (by intro hc; cases hc; exact h rfl)
  | Except.error _, Except.ok _ => isFalse (by intro hc; cases hc)
  | Except.ok _, Except.error _ => isFalse (by intro hc; cases hc)
  | Except.ok a, Except.ok b =>
    if h : a = b then isTrue (by rw [h]) else isFalse (by intro hc; cases hc; exact h rfl)

/-- File-system oracle for one `StateManager.Load` call: whether `os.Stat`
reports the file missing, the `os.Open` result, and the JSON decode result. -/
structure LoadEnv where
  fileMissing : Bool
  openRes : Except String Unit
  decodeRes : Except String StateData
deriving DecidableEq, Repr

/-- `StateManager.Load` (gocode/state.go lines 33-51). -/
def smLoad (env : LoadEnv) (sm : SM) : Except String SM :=
  if env.fileMissing then Except.ok sm
  else match env.openRes with
    | Except.error e => Except.error ("error opening state file: " ++ e)
    | Except.ok _ => match env.decodeRes with
      | Except.error e => Except.error ("error decoding state file: " ++ e)
      | Except.ok st => Except.ok { sm with mem := st }

/-- Modelled from the spec: `StateManager.GetByName` is called from
commands.go but absent from the sources; per the spec's `findByName` it is a
linear scan splitting each key on the last `#` to recover the tool name,
returning the release, its key, and a found flag. -/
def getByName (st : StateData) (name : String) : Option (Release × String) :=
  match st.find? (fun kv => keyToolName kv.1 == name) with
  | some kv => some (kv.2, kv.1)
  | none => none

/-- Modelled from the spec: `StateManager.SetItem` is called from commands.go
but absent from the sources; per the spec's `setAndPersist` it mutates the
in-memory map and synchronously flushes to disk. -/
def setItem (sm : SM) (key : String) (value : Release) : SM :=
  smSave { sm with mem := insertState sm.mem key value }

/-- Modelled from the spec: `StateManager.SetByName` is called from commands.go
but absent from the sources; per the spec it persists the release under the
composite key `url#name` (`setAndPersist` with a freshly built key). -/
def setByName (sm : SM) (url name : String) (value : Release) : SM :=
  smSave { sm with mem := insertState sm.mem (url ++ "#" ++ name) value }

/-! ### hold command (gocode/commands.go holdCmd) -/

/-- The registered default of the `--unset` flag:
`cmd.Flags().BoolVar(&unset, "unset", true, "unset from hold")`. -/
def holdUnsetDefault : Bool := true

/-- `holdCmd`'s `RunE` after a successful state load: find the tool by name,
flip only `HoldUpdate` according to `unset`, and store it back via `SetItem`
under the key from a second `GetByName` call (whose found flag is ignored,
defaulting the key to `""`). Returns the new manager and the printed message. -/
def holdCmdRun (unset : Bool) (name : String) (sm : SM) : Except String (SM × String) :=
  match getByName sm.mem name with
  | none => Except.error ("tool " ++ name ++ " not found")
  | some (release, _) =>
    let updated := if unset then { release with holdUpdate := false }
                   else { release with holdUpdate := true }
    let msg := if unset then "Unheld updates for " ++ name else "Held updates for " ++ name
    let key := match getByName sm.mem name with
      | some (_, k) => k
      | none => ""
    Except.ok (setItem sm key updated, msg)

/-! ### upgrade command, checking phase (gocode/commands.go upgradeCmd) -/

structure UpgradeInfo where
  name : String
  currentVersion : String
  newVersion : String
  release : Release
  asset : ReleaseAssets
  repoURL : String
  key : String
deriving DecidableEq, Repr

/-- Body of the per-tool goroutine of `upgradeCmd`: `fetch` collapses
`GetRepoInfo` + `repo.Release("", pre)` into one oracle (`none` when either
fails).  The concurrent fan-out is serialised; every swallowed failure leaves
the accumulator unchanged. -/
def checkStep (os arch : String) (fetch : String → Option (List Release)) (force : Bool)
    (acc : List UpgradeInfo) (kv : String × Release) : List UpgradeInfo :=
  let key := kv.1
  let release := kv.2
  let toolName := if goContains key "#" then (goSplit key '#').getLastD "" else key
  if release.holdUpdate then acc
  else match fetch release.url with
    | none => acc
    | some releases =>
      match releases with
      | [] => acc
      | latestRelease :: _ =>
        if (latestRelease.tagName != release.tagName) || force then
          match GetRelease os arch releases release.url [] with
          | Except.error _ => acc
          | Except.ok asset =>
            acc ++ [⟨toolName, release.tagName, latestRelease.tagName, latestRelease, asset,
                     release.url, key⟩]
        else acc

/-- The whole checking phase over the state items. -/
def checkUpgrades (os arch : String) (fetch : String → Option (List Release)) (force : Bool)
    (items : List (String × Release)) : List UpgradeInfo :=
  items.foldl (checkStep os arch fetch force) []

/-- The per-entry candidate condition as the spec states it, amended with the
asset-selection requirement; `checkUpgrades` is proved equal to filtering with
this function. -/
def candOf (os arch : String) (fetch : String → Option (List Release)) (force : Bool)
    (kv : String × Release) : Option UpgradeInfo :=
  let key := kv.1
  let release := kv.2
  let toolName := if goContains key "#" then (goSplit key '#').getLastD "" else key
  if release.holdUpdate then none
  else match fetch release.url with
    | none => none
    | some releases =>
      match releases with
      | [] => none
      | latestRelease :: _ =>
        if (latestRelease.tagName != release.tagName) || force then
          match GetRelease os arch releases release.url [] with
          | Except.error _ => none
          | Except.ok asset =>
            some ⟨toolName, release.tagName, latestRelease.tagName, latestRelease, asset,
                  release.url, key⟩
        else none

/-! ### get command (gocode/commands.go getCmd) -/

/-- Oracle results for the effectful steps of `getCmd`'s `RunE`, in pipeline
order.  `extractRes` yields the extracted file tree consumed by
`FindExecutable`. -/
structure GetCmdEnv where
  configRes : Except String ToolConfig
  repoRes : Except String Unit
  repositoryRes : Except String RepositoryInfo
  releasesRes : Except String (List Release)
  promptRes : Except String String
  mkdirRes : Except String Unit
  extractRes : Except String (List FileEntry)
  installRes : Except String Unit
deriving Repr

/-- Outcome of one `getCmd` run: the command result, the resulting state file,
and whether `SetByName` was executed. -/
structure GetCmdOutcome where
  res : Except String Unit
  disk : StateData
  wrote : Bool
deriving DecidableEq, Repr

/-- `getCmd`'s `RunE`: each failing step returns its wrapped error; a declined
prompt returns success without installing; the state entry is written (via
`SetByName` on a freshly created, unloaded `StateManager`) only after
`InstallBin` succeeded. -/
def getCmdRun (env : GetCmdEnv) (os arch url nameFlag : String) (approve : Bool)
    (disk : StateData) : GetCmdOutcome :=
  match env.configRes with
  | Except.error e => ⟨Except.error ("error loading config: " ++ e), disk, false⟩
  | Except.ok _ =>
  match env.repoRes with
  | Except.error e => ⟨Except.error ("error getting repository info: " ++ e), disk, false⟩
  | Except.ok _ =>
  match env.repositoryRes with
  | Except.error e => ⟨Except.error ("error getting repository: " ++ e), disk, false⟩
  | Except.ok _ =>
  match env.releasesRes with
  | Except.error e => ⟨Except.error ("error getting releases: " ++ e), disk, false⟩
  | Except.ok releases =>
  match releases with
  | [] => ⟨Except.error "no releases found", disk, false⟩
  | r0 :: rest =>
  match GetRelease os arch (r0 :: rest) url [] with
  | Except.error e => ⟨Except.error ("error finding release: " ++ e), disk, false⟩
  | Except.ok asset =>
  let toolName := if nameFlag != "" then nameFlag
    else
      let parts := goSplit (goTrimSuffix url "/") '/'
      if 2 ≤ parts.length then parts.getLastD "unknown" else "unknown"
  let proceed : Except String Bool :=
    if approve then Except.ok true
    else match env.promptRes with
      | Except.error e => Except.error ("error reading input: " ++ e)
      | Except.ok resp =>
        let r := goToLower (goTrimSpace resp)
        Except.ok (r == "" || r == "y" || r == "yes")
  match proceed with
  | Except.error e => ⟨Except.error e, disk, false⟩
  | Except.ok false => ⟨Except.ok (), disk, false⟩
  | Except.ok true =>
  match env.mkdirRes with
  | Except.error e => ⟨Except.error ("error creating temp directory: " ++ e), disk, false⟩
  | Except.ok _ =>
  match env.extractRes with
  | Except.error e => ⟨Except.error ("error extracting release: " ++ e), disk, false⟩
  | Except.ok tree =>
  match FindExecutable tree with
  | Except.error e => ⟨Except.error ("error finding executable: " ++ e), disk, false⟩
  | Except.ok _ =>
  match env.installRes with
  | Except.error e => ⟨Except.error ("error installing binary: " ++ e), disk, false⟩
  | Except.ok _ =>
    let destName := if nameFlag != "" then nameFlag else toolName
    let stored := { r0 with assets := [asset] }
    ⟨Except.ok (), (setByName ⟨[], disk⟩ url destName stored).disk, true⟩

/-! ### Concrete data used by the witness and counterexample theorems -/

def wAsset1a : ReleaseAssets := ⟨"", "", "", 0, 1, "checksums.txt", "", 100, "", ""⟩

def wAsset1b : ReleaseAssets := ⟨"", "", "", 0, 2, "tool-linux-amd64.tar.gz", "", 1000, "", ""⟩

def wRels1 : List Release :=
  [⟨"https://github.com/o/t", "v1", "v1.0.0", false, "", [wAsset1a, wAsset1b], false⟩]

def wAssetTar : ReleaseAssets :=
  ⟨"https://e/x.tar.gz", "application/gzip", "", 10, 1, "gron-tar-linux-amd64.tar.gz", "", 1000, "uploaded", ""⟩

def wAssetDeb : ReleaseAssets :=
  ⟨"https://e/x.deb", "application/gzip", "", 10, 2, "gron-tar-linux-amd64.deb", "", 1000, "uploaded", ""⟩

def cexTar : ReleaseAssets :=
  ⟨"u1", "", "", 0, 1, "tar-windows-arm64.tar.gz", "", 200000000, "", ""⟩

def cexDeb : ReleaseAssets :=
  ⟨"u2", "application/x-executable", "", 0, 2, "tar-windows-arm64.deb", "", 1000, "", ""⟩

def cexStem : List Char := ("tar-windows-arm64" : String).data

def wStem2 : List Char := ("gron-tar-linux-amd64" : String).data

def wAsset3 : ReleaseAssets := ⟨"", "", "", 0, 1, "checksums.sha256", "", 100, "", ""⟩

def wRels3 : List Release := [⟨"https://github.com/o/t", "v1", "v1.0.0", false, "", [wAsset3], false⟩]

def wMd : FileEntry := ⟨"/tmp/x/README.md", "README.md", [35, 32, 104, 105], true, false⟩

def wTxt : FileEntry := ⟨"/tmp/x/notes.txt", "notes.txt", [110, 111], true, false⟩

def wElf : FileEntry := ⟨"/tmp/x/abc", "abc", [0x7F, 0x45, 0x4C, 0x46, 2, 1, 1, 0], true, false⟩

def wFiles4 : List FileEntry := [wMd, wTxt, wElf]

def badAsset5 : ReleaseAssets := ⟨"", "", "", 0, 9, "qq", "", 10, "", ""⟩

def rOld5 : Release := ⟨"https://github.com/o/t", "t", "v1.0.0", false, "", [], false⟩

def rNew5 : Release := ⟨"https://github.com/o/t", "t", "v1.1.0", false, "", [badAsset5], false⟩

def fetch5 : String → Option (List Release) := fun _ => some [rNew5]

def items5 : List (String × Release) := [("https://github.com/o/t#t", rOld5)]

def envW6 : GetCmdEnv :=
  ⟨Except.ok ⟨"", "", "/bin", false⟩, Except.ok (), Except.ok ⟨"t", "o/t", "", "", "Go", 1⟩,
   Except.error "boom", Except.ok "y", Except.ok (), Except.ok [], Except.ok ()⟩

def rel8 : Release := ⟨"u", "n", "v1", false, "", [], false⟩

def heldRel9 : Release := ⟨"https://github.com/tomnomnom/gron", "v0.7.1", "v0.7.1", false, "", [], true⟩

def sm9 : SM :=
  ⟨[("https://github.com/tomnomnom/gron#gron", heldRel9)],
   [("https://github.com/tomnomnom/gron#gron", heldRel9)]⟩

def cFile10 : FileEntry :=
  ⟨"/tmp/y/tool-1.15.2", "tool-1.15.2", [0x7F, 0x45, 0x4C, 0x46, 2, 1, 1, 0], true, true⟩

def wLic10 : FileEntry := ⟨"/tmp/y/LICENSE", "LICENSE", [76, 73, 67], true, false⟩

def wFiles10 : List FileEntry := [cFile10, wLic10]

/-! ### Substring lemmas -/

lemma frontOf_iff (p : List Char) : ∀ s, frontOf p s = true ↔ ∃ q, s = p ++ q := by
  induction p with
  | nil => intro s; simp [frontOf]
  | cons a p ih =>
    intro s
    cases s with
    | nil => simp [frontOf]
    | cons b t =>
      simp only [frontOf, Bool.and_eq_true, beq_iff_eq, ih, List.cons_append]
      constructor
      · rintro ⟨rfl, q, rfl⟩; exact ⟨q, rfl⟩
      · rintro ⟨q, hq⟩
        injection hq with h1 h2
        exact ⟨h1.symm, q, h2⟩

lemma subIn_iff (pat : List Char) : ∀ s, subIn pat s = true ↔ ∃ p q, s = p ++ pat ++ q := by
  intro s
  induction s with
  | nil =>
    show frontOf pat [] = true ↔ _
    rw [frontOf_iff]
    constructor
    · rintro ⟨q, hq⟩; exact ⟨[], q, hq⟩
    · rintro ⟨p, q, hpq⟩
      rcases List.append_eq_nil.mp hpq.symm with ⟨h1, hq⟩
      rcases List.append_eq_nil.mp h1 with ⟨hp, hpat⟩
      exact ⟨[], by simp [hpat]⟩
  | cons a t ih =>
    show (frontOf pat (a :: t) || subIn pat t) = true ↔ _
    rw [Bool.or_eq_true, frontOf_iff, ih]
    constructor
    · rintro (⟨q, hq⟩ | ⟨p, q, hq⟩)
      · exact ⟨[], q, by simpa using hq⟩
      · exact ⟨a :: p, q, by simp [hq]⟩
    · rintro ⟨p, q, hq⟩
      cases p with
      | nil => left; exact ⟨q, by simpa using hq⟩
      | cons x p' =>
        right
        rw [List.cons_append, List.cons_append] at hq
        injection hq with h1 h2
        exact ⟨p', q, by simpa using h2⟩

lemma clash_front (T : List Char) : ∀ c, clashes T c = true → ∀ ys, frontOf T (c ++ ys) = false := by
  induction T with
  | nil => intro c h; simp [clashes] at h
  | cons a T ih =>
    intro c h ys
    cases c with
    | nil => simp [clashes] at h
    | cons b c' =>
      simp only [clashes, Bool.or_eq_true, Bool.not_eq_true'] at h
      rw [List.cons_append]
      show (a == b && frontOf T (c' ++ ys)) = false
      rcases h with h | h
      · simp [h]
      · simp [ih c' h ys]

lemma blocked_spec : ∀ (c T : List Char), blockedB T c = true →
    ∀ ys, subIn T (c ++ ys) = subIn T ys := by
  intro c
  induction c with
  | nil => intro T _ ys; rfl
  | cons b c' ih =>
    intro T h ys
    simp only [blockedB, Bool.and_eq_true] at h
    obtain ⟨h1, h2⟩ := h
    have hf : frontOf T ((b :: c') ++ ys) = false := clash_front T (b :: c') h1 ys
    rw [List.cons_append] at hf
    rw [List.cons_append]
    show (frontOf T (b :: (c' ++ ys)) || subIn T (c' ++ ys)) = subIn T ys
    rw [hf, Bool.false_or, ih T h2 ys]

lemma subIn_rev (T s : List Char) : subIn T s = subIn T.reverse s.reverse := by
  cases hA : subIn T s with
  | true =>
    obtain ⟨p, q, rfl⟩ := (subIn_iff T s).mp hA
    symm
    apply (subIn_iff _ _).mpr
    exact ⟨q.reverse, p.reverse, by simp [List.reverse_append, List.append_assoc]⟩
  | false =>
    cases hB : subIn T.reverse s.reverse with
    | false => rfl
    | true =>
      obtain ⟨p, q, hs⟩ := (subIn_iff _ _).mp hB
      have hrev : s = q.reverse ++ T ++ p.reverse := by
        have h2 := congrArg List.reverse hs
        simpa [List.reverse_append, List.append_assoc] using h2
      have hT : subIn T s = true := (subIn_iff _ _).mpr ⟨q.reverse, p.reverse, hrev⟩
      rw [hA] at hT
      exact absurd hT (by simp)

lemma subIn_stem_ext (T ext : List Char) (hb : blockedB T.reverse ext.reverse = true)
    (stem : List Char) : subIn T (stem ++ ext) = subIn T stem := by
  rw [subIn_rev T (stem ++ ext), List.reverse_append,
      blocked_spec ext.reverse T.reverse hb stem.reverse, ← subIn_rev]

lemma frontOf_append_self (p : List Char) : ∀ r, frontOf p (p ++ r) = true := by
  induction p with
  | nil => intro r; rfl
  | cons a p ih => intro r; simp [frontOf, ih]

/-! ### Fold lemmas for the selector -/

lemma listMaxQ_cons (f : ReleaseAssets → ℚ) (m : ℚ) (a : ReleaseAssets) (l : List ReleaseAssets) :
    listMaxQ f m (a :: l) = listMaxQ f (max m (f a)) l := rfl

lemma le_listMaxQ (f : ReleaseAssets → ℚ) : ∀ (l : List ReleaseAssets) (m : ℚ), m ≤ listMaxQ f m l := by
  intro l
  induction l with
  | nil => intro m; exact le_refl m
  | cons a l ih => intro m; exact le_trans (le_max_left m (f a)) (ih (max m (f a)))

lemma listMaxQ_mem_le (f : ReleaseAssets → ℚ) :
    ∀ (l : List ReleaseAssets) (m : ℚ) (a : ReleaseAssets), a ∈ l → f a ≤ listMaxQ f m l := by
  intro l
  induction l with
  | nil => intro m a ha; cases ha
  | cons b l ih =>
    intro m a ha
    rcases List.mem_cons.mp ha with rfl | ha'
    · exact le_trans (le_max_right m (f a)) (le_listMaxQ f l (max m (f a)))
    · exact ih (max m (f b)) a ha'

lemma listMaxQ_all_le (f : ReleaseAssets → ℚ) :
    ∀ (l : List ReleaseAssets) (m : ℚ), (∀ a ∈ l, f a ≤ m) → listMaxQ f m l = m := by
  intro l
  induction l with
  | nil => intro m _; rfl
  | cons a l ih =>
    intro m h
    rw [listMaxQ_cons, max_eq_left (h a (List.mem_cons_self a l))]
    exact ih m (fun b hb => h b (List.mem_cons_of_mem a hb))

lemma listMaxQ_attained (f : ReleaseAssets → ℚ) :
    ∀ (l : List ReleaseAssets) (m : ℚ),
      listMaxQ f m l = m ∨ ∃ a ∈ l, listMaxQ f m l = f a := by
  intro l
  induction l with
  | nil => intro m; left; rfl
  | cons a l ih =>
    intro m
    rcases ih (max m (f a)) with h | ⟨b, hb, hEq⟩
    · rcases le_or_lt (f a) m with hle | hlt
      · left; rw [listMaxQ_cons, h, max_eq_left hle]
      · right; exact ⟨a, List.mem_cons_self a l, by rw [listMaxQ_cons, h, max_eq_right hlt.le]⟩
    · right; exact ⟨b, List.mem_cons_of_mem a hb, by rw [listMaxQ_cons]; exact hEq⟩

lemma pickFold_snd (f : ReleaseAssets → ℚ) :
    ∀ (l : List ReleaseAssets) (o : Option ReleaseAssets) (m : ℚ),
      (List.foldl (pickStep f) (o, m) l).2 = listMaxQ f m l := by
  intro l
  induction l with
  | nil => intro o m; rfl
  | cons a l ih =>
    intro o m
    rw [List.foldl_cons, listMaxQ_cons]
    by_cases h : m < f a
    · have hstep : pickStep f (o, m) a = (some a, f a) := by simp [pickStep, h]
      rw [hstep, ih, max_eq_right h.le]
    · have hstep : pickStep f (o, m) a = (o, m) := by simp [pickStep, h]
      rw [hstep, ih, max_eq_left (not_lt.mp h)]

lemma pickFold_fix (f : ReleaseAssets → ℚ) :
    ∀ (l : List ReleaseAssets) (o : Option ReleaseAssets) (m : ℚ),
      listMaxQ f m l ≤ m → List.foldl (pickStep f) (o, m) l = (o, m) := by
  intro l
  induction l with
  | nil => intro o m _; rfl
  | cons a l ih =>
    intro o m h
    rw [listMaxQ_cons] at h
    have hfa : f a ≤ m :=
      le_trans (le_trans (le_max_right m (f a)) (le_listMaxQ f l (max m (f a)))) h
    have hstep : pickStep f (o, m) a = (o, m) := by simp [pickStep, not_lt.mpr hfa]
    rw [List.foldl_cons, hstep]
    apply ih
    rwa [max_eq_left hfa] at h

lemma pickFold_fst (f : ReleaseAssets → ℚ) :
    ∀ (l : List ReleaseAssets) (o : Option ReleaseAssets) (m : ℚ),
      m < listMaxQ f m l →
      (List.foldl (pickStep f) (o, m) l).1 =
        l.find? (fun a => decide (listMaxQ f m l ≤ f a)) := by
  intro l
  induction l with
  | nil => intro o m h; exact absurd h (lt_irrefl m)
  | cons a l ih =>
    intro o m h
    rw [List.foldl_cons]
    by_cases hfa : m < f a
    · have hstep : pickStep f (o, m) a = (some a, f a) := by simp [pickStep, hfa]
      have hMcons : listMaxQ f m (a :: l) = listMaxQ f (f a) l := by
        rw [listMaxQ_cons, max_eq_right hfa.le]
      rw [hstep, hMcons]
      rcases lt_or_le (f a) (listMaxQ f (f a) l) with hlt | hge
      · rw [ih (some a) (f a) hlt]
        have hpred : (decide (listMaxQ f (f a) l ≤ f a)) = false := by
          simp [not_le.mpr hlt]
        simp [List.find?, hpred]
      · have hEq : listMaxQ f (f a) l = f a := le_antisymm hge (le_listMaxQ f l (f a))
        have hfix : List.foldl (pickStep f) (some a, f a) l = (some a, f a) :=
          pickFold_fix f l (some a) (f a) (by rw [hEq])
        rw [hfix]
        have hpred : (decide (listMaxQ f (f a) l ≤ f a)) = true := by simp [hge]
        simp [List.find?, hpred]
    · have hstep : pickStep f (o, m) a = (o, m) := by simp [pickStep, hfa]
      have hfa' : f a ≤ m := not_lt.mp hfa
      have hMcons : listMaxQ f m (a :: l) = listMaxQ f m l := by
        rw [listMaxQ_cons, max_eq_left hfa']
      rw [hMcons] at h ⊢
      rw [hstep, ih o m h]
      have hpred : (decide (listMaxQ f m l ≤ f a)) = false := by
        simp [not_le.mpr (lt_of_le_of_lt hfa' h)]
      simp [List.find?, hpred]

lemma flatAssets_cons (r : Release) (rs : List Release) :
    flatAssets (r :: rs) = r.assets ++ flatAssets rs := rfl

lemma foldl_flat (g : ReleaseAssets → ℚ) :
    ∀ (rs : List Release) (acc : Option ReleaseAssets × ℚ),
      rs.foldl (fun acc release => release.assets.foldl (pickStep g) acc) acc =
        (flatAssets rs).foldl (pickStep g) acc := by
  intro rs
  induction rs with
  | nil => intro acc; rfl
  | cons r rs ih =>
    intro acc
    rw [List.foldl_cons, flatAssets_cons, List.foldl_append, ih]

/-! ### Claim C1 -/

/-- C1: for every non-empty release list containing at least one asset with a
positive score, `GetRelease` returns the asset whose final heuristic score is
strictly highest across all assets of all releases, and on exact score ties the
first asset in iteration order wins (the returned asset is the first one, in
the flattened release/asset iteration order, attaining the maximal score). -/
theorem getRelease_first_strict_max (os arch repoURL : String) (extraWords : List String)
    (releases : List Release) (h1 : releases ≠ [])
    (h2 : ∃ a ∈ flatAssets releases, 0 < calculateAssetScore a os arch extraWords) :
    ∃ a, GetRelease os arch releases repoURL extraWords = Except.ok a ∧
      a ∈ flatAssets releases ∧
      (∀ b ∈ flatAssets releases,
        calculateAssetScore b os arch extraWords ≤ calculateAssetScore a os arch extraWords) ∧
      (flatAssets releases).find?
          (fun b => decide (calculateAssetScore a os arch extraWords ≤
            calculateAssetScore b os arch extraWords)) = some a := by
  classical
  set f : ReleaseAssets → ℚ := fun a => calculateAssetScore a os arch extraWords with hf
  obtain ⟨a0, ha0, hpos⟩ := h2
  have hMpos : 0 < listMaxQ f 0 (flatAssets releases) :=
    lt_of_lt_of_le hpos (listMaxQ_mem_le f (flatAssets releases) 0 a0 ha0)
  obtain ⟨r, rest, rfl⟩ : ∃ r rest, releases = r :: rest := by
    cases releases with
    | nil => exact absurd rfl h1
    | cons r rest => exact ⟨r, rest, rfl⟩
  have hfold :
      (List.foldl (fun acc release => release.assets.foldl (pickStep f) acc)
        ((none : Option ReleaseAssets), (0 : ℚ)) (r :: rest)).1 =
      (flatAssets (r :: rest)).find?
        (fun a => decide (listMaxQ f 0 (flatAssets (r :: rest)) ≤ f a)) := by
    rw [foldl_flat f (r :: rest) ((none : Option ReleaseAssets), (0 : ℚ))]
    exact pickFold_fst f (flatAssets (r :: rest)) none 0 hMpos
  have hsome : ∃ a, (flatAssets (r :: rest)).find?
      (fun a => decide (listMaxQ f 0 (flatAssets (r :: rest)) ≤ f a)) = some a := by
    rcases listMaxQ_attained f (flatAssets (r :: rest)) 0 with hz | ⟨b, hb, hEq⟩
    · rw [hz] at hMpos; exact absurd hMpos (lt_irrefl 0)
    · have : (flatAssets (r :: rest)).find?
          (fun a => decide (listMaxQ f 0 (flatAssets (r :: rest)) ≤ f a)) |>.isSome := by
        apply List.find?_isSome.mpr
        exact ⟨b, hb, by simp [hEq.le]⟩
      exact Option.isSome_iff_exists.mp this
  obtain ⟨a, hfind⟩ := hsome
  have hamem : a ∈ flatAssets (r :: rest) := List.mem_of_find?_eq_some hfind
  have hpred := List.find?_some hfind
  have hale : listMaxQ f 0 (flatAssets (r :: rest)) ≤ f a := by simpa using hpred
  have hage : f a ≤ listMaxQ f 0 (flatAssets (r :: rest)) :=
    listMaxQ_mem_le f (flatAssets (r :: rest)) 0 a hamem
  have haEq : f a = listMaxQ f 0 (flatAssets (r :: rest)) := le_antisymm hage hale
  refine ⟨a, ?_, hamem, ?_, ?_⟩
  · have hGR : GetRelease os arch (r :: rest) repoURL extraWords =
        (match (List.foldl (fun acc release => release.assets.foldl (pickStep f) acc)
            ((none : Option ReleaseAssets), (0 : ℚ)) (r :: rest)).1 with
          | none => Except.error ("no suitable asset found for " ++ os ++ "/" ++ arch)
          | some bestAsset => Except.ok bestAsset) := rfl
    rw [hGR, hfold, hfind]
  · intro b hb
    exact le_trans (listMaxQ_mem_le f (flatAssets (r :: rest)) 0 b hb) (le_of_eq haEq.symm)
  · have hcongr : (fun b => decide (f a ≤ f b)) =
        (fun b => decide (listMaxQ f 0 (flatAssets (r :: rest)) ≤ f b)) := by
      funext b
      rw [haEq]
    show (flatAssets (r :: rest)).find? (fun b => decide (f a ≤ f b)) = some a
    rw [hcongr, hfind]

/-- C1 witness: on a concrete release list with one unmatched and one matching
asset, the selector picks the matching asset and it is the first maximal one. -/
theorem getRelease_first_strict_max_witness :
    ∃ a, GetRelease "linux" "x86_64" wRels1 "https://github.com/o/t" [] = Except.ok a ∧
      a ∈ flatAssets wRels1 ∧
      (∀ b ∈ flatAssets wRels1,
        calculateAssetScore b "linux" "x86_64" [] ≤ calculateAssetScore a "linux" "x86_64" []) ∧
      (flatAssets wRels1).find?
          (fun b => decide (calculateAssetScore a "linux" "x86_64" [] ≤
            calculateAssetScore b "linux" "x86_64" [])) = some a := by
  have hop : otherPlatforms "linux" = some ["windows", "darwin", "macos", "win32", "win64", ".exe"] := rfl
  have hoa : otherArchs "x86_64" = some ["arm64", "aarch64", "arm", "i386", "i686"] := rfl
  have hmc : assetMatchCount wAsset1b "linux" "x86_64" [] = 4 := by decide
  have hlenN : (allPatternsOf "linux" "x86_64" []).length = 8 := by decide
  have hc1 : (["windows", "darwin", "macos", "win32", "win64", ".exe"].any
      (fun p => goContains (goToLower wAsset1b.name) p)) = false := by decide
  have hc2 : (["arm64", "aarch64", "arm", "i386", "i686"].any
      (fun a => goContains (goToLower wAsset1b.name) a)) = false := by decide
  have harc : isArchiveAsset wAsset1b = true := by decide
  have hdbg : (goContains (goToLower wAsset1b.name) "debug" ||
      goContains (goToLower wAsset1b.name) "dbg") = false := by decide
  have hsz : wAsset1b.size < 100 * 1024 * 1024 := by decide
  have hscore : calculateAssetScore wAsset1b "linux" "x86_64" [] = 13 / 10 := by
    simp only [calculateAssetScore, hmc, hlenN, applyPlatformPenalties, hop, hoa, hc1, hc2,
      applyAssetBonusesAndPenalties, harc, hdbg, if_true, if_false, Bool.false_eq_true,
      if_pos hsz]
    norm_num
  exact getRelease_first_strict_max "linux" "x86_64" "https://github.com/o/t" [] wRels1
    (by decide) ⟨wAsset1b, by decide, by rw [hscore]; norm_num⟩

/-! ### Claim C3 -/

/-- C3: `GetRelease` on an empty release list fails with the no-releases error,
and on releases whose every asset matches zero patterns (hence scores 0) it
fails with the no-suitable-asset error. -/
theorem getRelease_error_cases (os arch repoURL : String) (extraWords : List String) :
    GetRelease os arch [] repoURL extraWords = Except.error "no releases found" ∧
    ∀ releases, releases ≠ [] →
      (∀ a ∈ flatAssets releases, assetMatchCount a os arch extraWords = 0) →
      GetRelease os arch releases repoURL extraWords =
        Except.error ("no suitable asset found for " ++ os ++ "/" ++ arch) := by
  constructor
  · rfl
  · intro releases hne hzero
    obtain ⟨r, rest, rfl⟩ : ∃ r rest, releases = r :: rest := by
      cases releases with
      | nil => exact absurd rfl hne
      | cons r rest => exact ⟨r, rest, rfl⟩
    set f : ReleaseAssets → ℚ := fun a => calculateAssetScore a os arch extraWords with hf
    have hz : ∀ a ∈ flatAssets (r :: rest), f a ≤ 0 := by
      intro a ha
      have : f a = 0 := by
        show calculateAssetScore a os arch extraWords = 0
        unfold calculateAssetScore
        simp [hzero a ha]
      exact le_of_eq this
    have hmax : listMaxQ f 0 (flatAssets (r :: rest)) ≤ 0 :=
      le_of_eq (listMaxQ_all_le f (flatAssets (r :: rest)) 0 hz)
    have hfix : List.foldl (pickStep f) ((none : Option ReleaseAssets), (0 : ℚ))
        (flatAssets (r :: rest)) = (none, 0) :=
      pickFold_fix f (flatAssets (r :: rest)) none 0 hmax
    have hGR : GetRelease os arch (r :: rest) repoURL extraWords =
        (match (List.foldl (fun acc release => release.assets.foldl (pickStep f) acc)
            ((none : Option ReleaseAssets), (0 : ℚ)) (r :: rest)).1 with
          | none => Except.error ("no suitable asset found for " ++ os ++ "/" ++ arch)
          | some bestAsset => Except.ok bestAsset) := rfl
    rw [hGR, foldl_flat f (r :: rest) ((none : Option ReleaseAssets), (0 : ℚ)), hfix]

/-- C3 witness: the empty list gives the no-releases error, and a concrete
release whose single asset matches no pattern gives the no-suitable-asset
error. -/
theorem getRelease_error_cases_witness :
    GetRelease "linux" "x86_64" [] "u" [] = Except.error "no releases found" ∧
    GetRelease "linux" "x86_64" wRels3 "u" [] =
      Except.error "no suitable asset found for linux/x86_64" :=
  ⟨(getRelease_error_cases "linux" "x86_64" "u" []).1,
   (getRelease_error_cases "linux" "x86_64" "u" []).2 wRels3 (by decide) (by decide)⟩

/-! ### Claim C7 -/

/-- C7 counterexample: a present but undecodable (corrupt) state file makes
`StateManager.Load` return a decode error, refuting the claim that loading
never fails and treats corrupt files as the empty state. -/
theorem smLoad_corrupt_fails_counterexample :
    smLoad ⟨false, Except.ok (), Except.error "unexpected end of JSON input"⟩ ⟨[], []⟩ =
      Except.error "error decoding state file: unexpected end of JSON input" := rfl

/-- C7 amended: a missing state file loads successfully with the state left as
it was (the empty state for a fresh manager), but a corrupt (undecodable) state
file surfaces a decode error rather than starting empty. -/
theorem smLoad_missing_ok_corrupt_error (env : LoadEnv) (sm : SM) :
    (env.fileMissing = true → smLoad env sm = Except.ok sm) ∧
    (∀ e, env.fileMissing = false → env.openRes = Except.ok () → env.decodeRes = Except.error e →
      smLoad env sm = Except.error ("error decoding state file: " ++ e)) := by
  constructor
  · intro h
    simp [smLoad, h]
  · intro e h1 h2 h3
    simp [smLoad, h1, h2, h3]

/-- C7 witness: the amended statement applied to a fresh manager with a missing
file and to one with a corrupt file. -/
theorem smLoad_missing_ok_corrupt_error_witness :
    smLoad ⟨true, Except.ok (), Except.ok []⟩ ⟨[], []⟩ = Except.ok ⟨[], []⟩ ∧
    smLoad ⟨false, Except.ok (), Except.error "bad"⟩ ⟨[], []⟩ =
      Except.error "error decoding state file: bad" :=
  ⟨(smLoad_missing_ok_corrupt_error ⟨true, Except.ok (), Except.ok []⟩ ⟨[], []⟩).1 rfl,
   (smLoad_missing_ok_corrupt_error ⟨false, Except.ok (), Except.error "bad"⟩ ⟨[], []⟩).2
     "bad" rfl rfl rfl⟩

/-! ### Claim C8 -/

/-- C8 counterexample: `StateManager.Set` writes to disk at once — after a
plain `Set` on a fresh manager with an empty state file, the on-disk state has
changed, refuting the claim that `Set` mutates memory only. -/
theorem smSet_writes_disk_counterexample :
    (smSet ⟨[], []⟩ "k" rel8).disk ≠ (⟨[], []⟩ : SM).disk := by decide

/-- C8 amended: `StateManager.Set` assigns into the in-memory map and then
immediately calls `Save`, so after `Set` both the memory and the on-disk state
file hold the updated map; there is no memory-only set. -/
theorem smSet_persists (sm : SM) (key : String) (value : Release) :
    (smSet sm key value).mem = insertState sm.mem key value ∧
    (smSet sm key value).disk = insertState sm.mem key value :=
  ⟨rfl, rfl⟩

/-! ### Claim C9 -/

/-- C9: the `--unset` flag of `holdCmd` is registered with default value
`true`, so running `hold NAME` without `--unset` takes the unset branch: it
stores the release with `holdUpdate = false` and prints "Unheld updates" —
here evaluated on a state whose tool `gron` was held, which becomes unheld.
This contradicts the claim (and the spec) that a plain hold sets the flag. -/
theorem holdCmd_default_unholds :
    (getByName sm9.mem "gron").map (fun q => q.1.holdUpdate) = some true ∧
    ((holdCmdRun holdUnsetDefault "gron" sm9).map
      (fun p => (p.2, (getByName p.1.mem "gron").map (fun q => q.1.holdUpdate)))) =
      Except.ok ("Unheld updates for gron", some false) := by decide

/-! ### Claim C5 -/

lemma checkStep_eq (os arch : String) (fetch : String → Option (List Release)) (force : Bool)
    (acc : List UpgradeInfo) (kv : String × Release) :
    checkStep os arch fetch force acc kv = acc ++ (candOf os arch fetch force kv).toList := by
  rcases kv with ⟨key, release⟩
  by_cases hH : release.holdUpdate
  · simp [checkStep, candOf, hH]
  · cases hF : fetch release.url with
    | none => simp [checkStep, candOf, hH, hF]
    | some rels =>
      cases rels with
      | nil => simp [checkStep, candOf, hH, hF]
      | cons latest rest =>
        by_cases hT : ((latest.tagName != release.tagName) || force) = true
        · cases hGR : GetRelease os arch (latest :: rest) release.url [] with
          | error e => simp [checkStep, candOf, hH, hF, hT, hGR]
          | ok asset => simp [checkStep, candOf, hH, hF, hT, hGR]
        · simp [checkStep, candOf, hH, hF, hT]

lemma checkUpgrades_go (os arch : String) (fetch : String → Option (List Release)) (force : Bool) :
    ∀ (items : List (String × Release)) (acc : List UpgradeInfo),
      items.foldl (checkStep os arch fetch force) acc =
        acc ++ items.filterMap (candOf os arch fetch force) := by
  intro items
  induction items with
  | nil => intro acc; simp
  | cons kv t ih =>
    intro acc
    rw [List.foldl_cons, checkStep_eq, ih]
    cases h : candOf os arch fetch force kv <;> simp [List.filterMap_cons, h]

/-- C5 counterexample: a state entry that is not held, whose fetch succeeds
with one release carrying a different tag, still yields no upgrade candidate
because its only asset matches no pattern and asset selection fails — refuting
the claim that candidates appear exactly under the held/fetch/tag conditions. -/
theorem checkUpgrades_missing_candidate_counterexample :
    rOld5.holdUpdate = false ∧ fetch5 rOld5.url = some [rNew5] ∧
    rNew5.tagName ≠ rOld5.tagName ∧
    checkUpgrades "linux" "x86_64" fetch5 false items5 = [] := by decide

/-- C5 amended: the checking phase produces a candidate exactly for those state
entries that are not held, whose fetch succeeds with at least one release,
whose latest tag differs from the stored tag (or force is set), and for which
asset selection (`GetRelease`) additionally succeeds on the fetched releases;
per-tool failures only omit that tool (they never abort the batch), so the
result equals filtering the items by the per-entry candidate condition — in
particular a held tool never contributes, and if every fetch fails the
candidate list is empty with no error raised. -/
theorem checkUpgrades_characterization (os arch : String)
    (fetch : String → Option (List Release)) (force : Bool)
    (items : List (String × Release)) :
    checkUpgrades os arch fetch force items = items.filterMap (candOf os arch fetch force) := by
  have h := checkUpgrades_go os arch fetch force items []
  simpa [checkUpgrades] using h

/-! ### Claim C6 -/

/-- C6: if any step of `getCmd`'s install pipeline fails, the command returns
that error and the persisted state is unchanged (no entry written); the state
entry is written only when `InstallBin` (and every step before it) succeeded.
`SetByName` is modelled from the spec (see its definition) since only its call
site is in the sources. -/
theorem getCmd_state_write_discipline (env : GetCmdEnv) (os arch url nameFlag : String)
    (approve : Bool) (disk : StateData) :
    (∀ e, (getCmdRun env os arch url nameFlag approve disk).res = Except.error e →
      (getCmdRun env os arch url nameFlag approve disk).disk = disk ∧
      (getCmdRun env os arch url nameFlag approve disk).wrote = false) ∧
    ((getCmdRun env os arch url nameFlag approve disk).wrote = true →
      env.installRes = Except.ok () ∧
      (getCmdRun env os arch url nameFlag approve disk).res = Except.ok ()) := by
  obtain ⟨cfg, repo, repoInfo, rels, prompt, mkdirR, extractR, installR⟩ := env
  simp only [getCmdRun]
  cases cfg with
  | error e => simp
  | ok c =>
  cases repo with
  | error e => simp
  | ok u1 =>
  cases repoInfo with
  | error e => simp
  | ok ri =>
  cases rels with
  | error e => simp
  | ok releases =>
  cases releases with
  | nil => simp
  | cons r0 rest =>
  cases hGR : GetRelease os arch (r0 :: rest) url [] with
  | error e => simp [hGR]
  | ok asset =>
  simp only [hGR]
  cases approve with
  | false =>
    cases prompt with
    | error e => simp
    | ok resp =>
      cases hB : (goToLower (goTrimSpace resp) == "" || goToLower (goTrimSpace resp) == "y" ||
          goToLower (goTrimSpace resp) == "yes") with
      | false => simp [hB]
      | true =>
        simp only [Bool.false_eq_true, if_false, hB]
        cases mkdirR with
        | error e => simp
        | ok u2 =>
        cases extractR with
        | error e => simp
        | ok tree =>
        cases hFE : FindExecutable tree with
        | error e => simp [hFE]
        | ok exe =>
        simp only [hFE]
        cases installR with
        | error e => simp
        | ok u3 => cases u3; simp
  | true =>
    simp only [if_true]
    cases mkdirR with
    | error e => simp
    | ok u2 =>
    cases extractR with
    | error e => simp
    | ok tree =>
    cases hFE : FindExecutable tree with
    | error e => simp [hFE]
    | ok exe =>
    simp only [hFE]
    cases installR with
    | error e => simp
    | ok u3 => cases u3; simp

/-- C6 witness: a run whose upstream release fetch fails returns that error,
leaves the state file unchanged and writes nothing. -/
theorem getCmd_state_write_discipline_witness :
    (getCmdRun envW6 "linux" "x86_64" "https://github.com/o/t" "" true []).disk = [] ∧
    (getCmdRun envW6 "linux" "x86_64" "https://github.com/o/t" "" true []).wrote = false :=
  (getCmd_state_write_discipline envW6 "linux" "x86_64" "https://github.com/o/t" "" true []).1
    "error getting releases: boom" rfl

/-! ### Claim C4 -/

/-- C4: whenever at least one non-excluded file of the extracted tree carries
an ELF / PE / Mach-O signature, `FindExecutable` returns the first such file's
path — a signature-bearing file is preferred over every file without a
signature, regardless of its filename. -/
theorem findExecutable_prefers_signatures (files : List FileEntry) (g : FileEntry)
    (rest : List FileEntry) (h : binaryExecutablesOf files = g :: rest) :
    FindExecutable files = Except.ok g.path ∧ IsBinaryExecutable g.content = true ∧ g ∈ files := by
  have hmem : g ∈ binaryExecutablesOf files := by
    rw [h]; exact List.mem_cons_self g rest
  rw [binaryExecutablesOf] at hmem
  obtain ⟨hgin, hpred⟩ := List.mem_filter.mp hmem
  simp only [Bool.and_eq_true] at hpred
  refine ⟨?_, hpred.2, hgin⟩
  show FindExecutable files = Except.ok g.path
  unfold FindExecutable
  rw [h]

/-- C4 witness: a tree with a `README.md`, a `notes.txt` and one ELF-signed
file named `abc` yields the ELF file. -/
theorem findExecutable_prefers_signatures_witness :
    FindExecutable wFiles4 = Except.ok "/tmp/x/abc" ∧
    IsBinaryExecutable wElf.content = true ∧ wElf ∈ wFiles4 :=
  findExecutable_prefers_signatures wFiles4 wElf [] (by decide)


/-! ### Claim C10 -/

lemma mem_candidateEntries {g f : FileEntry} (h : g ∈ candidateEntries f) :
    g = f ∧ skipName f.name = false := by
  unfold candidateEntries at h
  by_cases hc : (skipName f.name || skipPath f.path f.name || IsBinaryExecutable f.content ||
      IsExecutable f) = true
  · rw [if_pos hc] at h; cases h
  · rw [if_neg hc] at h
    have hskip : skipName f.name = false := by
      rcases hs : skipName f.name with _ | _
      · rfl
      · exact absurd (by simp [hs]) hc
    refine ⟨?_, hskip⟩
    rcases List.mem_append.mp h with h2 | h2
    · rcases List.mem_append.mp h2 with h3 | h3 <;> (split at h3 <;> simp_all)
    · split at h2 <;> simp_all

lemma mem_candidateFilesOf {g : FileEntry} {files : List FileEntry}
    (h : g ∈ candidateFilesOf files) : g ∈ files ∧ skipName g.name = false := by
  unfold candidateFilesOf at h
  rw [List.mem_flatten] at h
  obtain ⟨l, hl, hgl⟩ := h
  obtain ⟨f, hf, rfl⟩ := List.mem_map.mp hl
  obtain ⟨rfl, hskip⟩ := mem_candidateEntries hgl
  exact ⟨hf, hskip⟩

lemma skipName_of_contains1 (n : String) (hc : goContains n ".1" = true) : skipName n = true := by
  simp [skipName, hc]

/-- C10 counterexample: a tree whose only file is an ELF-signed executable
named `tool-1.15.2` (its name contains `.1`) is returned by the last-resort
tier, refuting the claim that such files are excluded from every tier and the
tree yields the no-executable-found error. -/
theorem findExecutable_dot1_counterexample :
    goContains cFile10.name ".1" = true ∧ IsBinaryExecutable cFile10.content = true ∧
    FindExecutable [cFile10] = Except.ok "/tmp/y/tool-1.15.2" := by decide

/-- C10 amended: files whose name contains `.1` are excluded from the
signature, executable-permission and candidate tiers, so in a tree of two or
more files (with distinct paths) such a file is never returned; but the
single-file last resort ignores this exclusion: a tree whose only file carries
a binary signature yields that file even when its name contains `.1`, instead
of the no-executable-found error. -/
theorem findExecutable_dot1_exclusion_amended :
    (∀ (files : List FileEntry) (f : FileEntry), (files.map FileEntry.path).Nodup →
      2 ≤ files.length → f ∈ files → goContains f.name ".1" = true →
      FindExecutable files ≠ Except.ok f.path) ∧
    (∀ g : FileEntry, IsBinaryExecutable g.content = true →
      FindExecutable [g] = Except.ok g.path) := by
  constructor
  · intro files f hnd hlen hf h1 hcontra
    have hinj : ∀ g ∈ files, g.path = f.path → g = f := fun g hg hpq =>
      List.inj_on_of_nodup_map hnd hg hf hpq
    have hclash : ∀ g ∈ files, skipName g.name = false → g.path = f.path → False := by
      intro g hg hskip hpq
      have hgf : g = f := hinj g hg hpq
      rw [hgf] at hskip
      exact absurd (skipName_of_contains1 f.name h1) (by simp [hskip])
    rcases hbe : binaryExecutablesOf files with _ | ⟨g, brest⟩
    · rcases hef : (executableFilesOf files).find? (fun f => !goHasPrefix (goBase f.path) "_" &&
          !goContains f.path "completion" && !goContains f.path "bash_completion") with _ | g
      · rcases hcf : (candidateFilesOf files).find? (fun f => IsBinaryExecutable f.content)
            with _ | g
        · rcases files with _ | ⟨a, _ | ⟨b, u⟩⟩
          · simp at hlen
          · simp at hlen
          · have hval : FindExecutable (a :: b :: u) =
                Except.error "no binary executable found in directory" := by
              unfold FindExecutable
              rw [hbe]
              simp only [hef, hcf]
            rw [hval] at hcontra
            cases hcontra
        · have hval : FindExecutable files = Except.ok g.path := by
            unfold FindExecutable
            rw [hbe]
            simp only [hef, hcf]
          have hpq : g.path = f.path := Except.ok.inj (hval.symm.trans hcontra)
          have hgmem := List.mem_of_find?_eq_some hcf
          obtain ⟨hgin, hskip⟩ := mem_candidateFilesOf hgmem
          exact hclash g hgin hskip hpq
      · have hval : FindExecutable files = Except.ok g.path := by
          unfold FindExecutable
          rw [hbe]
          simp only [hef]
        have hpq : g.path = f.path := Except.ok.inj (hval.symm.trans hcontra)
        have hgmem := List.mem_of_find?_eq_some hef
        rw [executableFilesOf] at hgmem
        obtain ⟨hgin, hpred⟩ := List.mem_filter.mp hgmem
        simp only [Bool.and_eq_true, Bool.not_eq_true'] at hpred
        exact hclash g hgin hpred.1.1.1 hpq
    · have hval : FindExecutable files = Except.ok g.path := by
        unfold FindExecutable
        rw [hbe]
      have hpq : g.path = f.path := Except.ok.inj (hval.symm.trans hcontra)
      have hgmem : g ∈ binaryExecutablesOf files := by
        rw [hbe]; exact List.mem_cons_self g brest
      rw [binaryExecutablesOf] at hgmem
      obtain ⟨hgin, hpred⟩ := List.mem_filter.mp hgmem
      simp only [Bool.and_eq_true, Bool.not_eq_true'] at hpred
      exact hclash g hgin hpred.1.1 hpq
  · intro g hbin
    unfold FindExecutable binaryExecutablesOf executableFilesOf candidateFilesOf candidateEntries
    rcases hs1 : skipName g.name with _ | _ <;> rcases hs2 : skipPath g.path g.name with _ | _ <;>
      simp [hs1, hs2, hbin, List.find?]

/-- C10 witness for the amended statement: in a two-file tree the `.1`-named
ELF binary is not returned, while alone in the tree it is returned. -/
theorem findExecutable_dot1_exclusion_amended_witness :
    (FindExecutable wFiles10 ≠ Except.ok "/tmp/y/tool-1.15.2") ∧
    FindExecutable [cFile10] = Except.ok "/tmp/y/tool-1.15.2" :=
  ⟨findExecutable_dot1_exclusion_amended.1 wFiles10 cFile10 (by decide) (by decide)
    (by decide) (by decide),
   findExecutable_dot1_exclusion_amended.2 cFile10 (by decide)⟩

/-! ### Claim C2 -/

lemma calculateAssetScore_eq (asset : ReleaseAssets) (os arch : String) (extraWords : List String) :
    calculateAssetScore asset os arch extraWords =
      if assetMatchCount asset os arch extraWords = 0 then 0
      else applyAssetBonusesAndPenalties
        (applyPlatformPenalties
          ((assetMatchCount asset os arch extraWords : ℚ) /
            ((allPatternsOf os arch extraWords).length : ℚ)) asset os arch)
        asset (goToLower asset.name) := rfl

lemma masterBlocked : ∀ t ∈ masterTokens,
    blockedB t.data.reverse ((".tar.gz" : String).data.reverse) = true ∧
    blockedB t.data.reverse ((".deb" : String).data.reverse) = true := by decide

lemma token_ext_eq (t : String) (ht : t ∈ masterTokens) (stem : List Char) :
    subIn t.data (stem ++ (".tar.gz" : String).data) =
      subIn t.data (stem ++ (".deb" : String).data) := by
  obtain ⟨h1, h2⟩ := masterBlocked t ht
  rw [subIn_stem_ext t.data (".tar.gz" : String).data h1 stem,
      subIn_stem_ext t.data (".deb" : String).data h2 stem]

lemma any_congr_list (L : List String) (f g : String → Bool) (h : ∀ x ∈ L, f x = g x) :
    L.any f = L.any g := by
  induction L with
  | nil => rfl
  | cons a t ih =>
    simp only [List.any_cons, h a (List.mem_cons_self a t),
      ih (fun x hx => h x (List.mem_cons_of_mem a hx))]

lemma otherPlatforms_tokens (os : String) (L : List String) (h : otherPlatforms os = some L) :
    ∀ t ∈ L, t ∈ masterTokens := by
  unfold otherPlatforms at h
  split at h
  · injection h with h2; subst h2; decide
  · injection h with h2; subst h2; decide
  · injection h with h2; subst h2; decide
  · cases h

lemma otherArchs_tokens (arch : String) (L : List String) (h : otherArchs arch = some L) :
    ∀ t ∈ L, t ∈ masterTokens := by
  unfold otherArchs at h
  split at h
  · injection h with h2; subst h2; decide
  · injection h with h2; subst h2; decide
  · cases h

lemma penalties_eq (s : ℚ) (os arch : String) (A B : ReleaseAssets)
    (htok : ∀ t ∈ masterTokens, goContains (goToLower A.name) t = goContains (goToLower B.name) t) :
    applyPlatformPenalties s A os arch = applyPlatformPenalties s B os arch := by
  unfold applyPlatformPenalties
  rcases hOP : otherPlatforms os with _ | L
  · rcases hOA : otherArchs arch with _ | L2
    · rfl
    · have h2 : L2.any (fun a => goContains (goToLower A.name) a) =
          L2.any (fun a => goContains (goToLower B.name) a) :=
        any_congr_list L2 _ _ (fun x hx => htok x (otherArchs_tokens arch L2 hOA x hx))
      simp only [h2]
  · have h1 : L.any (fun p => goContains (goToLower A.name) p) =
        L.any (fun p => goContains (goToLower B.name) p) :=
      any_congr_list L _ _ (fun x hx => htok x (otherPlatforms_tokens os L hOP x hx))
    rcases hOA : otherArchs arch with _ | L2
    · simp only [h1]
    · have h2 : L2.any (fun a => goContains (goToLower A.name) a) =
          L2.any (fun a => goContains (goToLower B.name) a) :=
        any_congr_list L2 _ _ (fun x hx => htok x (otherArchs_tokens arch L2 hOA x hx))
      simp only [h1, h2]

lemma penalties_pos (s : ℚ) (hs : 0 < s) (a : ReleaseAssets) (os arch : String) :
    0 < applyPlatformPenalties s a os arch := by
  unfold applyPlatformPenalties
  rcases otherPlatforms os with _ | L <;> rcases otherArchs arch with _ | L2 <;>
    simp only [] <;> (try split_ifs) <;>
    first
      | exact hs
      | exact mul_pos hs (by norm_num)
      | exact mul_pos (mul_pos hs (by norm_num)) (by norm_num)

lemma archive_of_tarGz (A : ReleaseAssets) (stem : List Char)
    (hA : (goToLower A.name).data = stem ++ (".tar.gz" : String).data) :
    isArchiveAsset A = true := by
  unfold isArchiveAsset
  have h : goHasSuffix (goToLower A.name) ".tar.gz" = true := by
    unfold goHasSuffix
    rw [hA, List.reverse_append]
    exact frontOf_append_self _ _
  simp [h]

lemma package_of_deb (B : ReleaseAssets) (stem : List Char)
    (hB : (goToLower B.name).data = stem ++ (".deb" : String).data) :
    isPackageAsset B = true := by
  unfold isPackageAsset
  have h : goHasSuffix (goToLower B.name) ".deb" = true := by
    unfold goHasSuffix
    rw [hB, List.reverse_append]
    exact frontOf_append_self _ _
  simp [h]

lemma notArchive_of_deb (B : ReleaseAssets) (stem : List Char)
    (hB : (goToLower B.name).data = stem ++ (".deb" : String).data) :
    isArchiveAsset B = false := by
  unfold isArchiveAsset
  have hrev : (goToLower B.name).data.reverse =
      (".deb" : String).data.reverse ++ stem.reverse := by
    rw [hB, List.reverse_append]
  have h1 : goHasSuffix (goToLower B.name) ".tar.gz" = false := by
    unfold goHasSuffix; rw [hrev]; exact clash_front _ _ (by decide) _
  have h2 : goHasSuffix (goToLower B.name) ".tgz" = false := by
    unfold goHasSuffix; rw [hrev]; exact clash_front _ _ (by decide) _
  have h3 : goHasSuffix (goToLower B.name) ".zip" = false := by
    unfold goHasSuffix; rw [hrev]; exact clash_front _ _ (by decide) _
  have h4 : goHasSuffix (goToLower B.name) ".tar" = false := by
    unfold goHasSuffix; rw [hrev]; exact clash_front _ _ (by decide) _
  simp [h1, h2, h3, h4]

lemma bonuses_lt (s : ℚ) (hs : 0 < s) (A B : ReleaseAssets) (nA nB : String)
    (hArcA : isArchiveAsset A = true) (hArcB : isArchiveAsset B = false)
    (hPkgB : isPackageAsset B = true)
    (hdbg : (goContains nA "debug" || goContains nA "dbg") =
      (goContains nB "debug" || goContains nB "dbg"))
    (hsz : decide (A.size < 100 * 1024 * 1024) = decide (B.size < 100 * 1024 * 1024)) :
    applyAssetBonusesAndPenalties s B nB < applyAssetBonusesAndPenalties s A nA := by
  unfold applyAssetBonusesAndPenalties
  rw [hArcA, hArcB, hPkgB]
  simp only [if_true, Bool.or_true, Bool.or_false, Bool.false_eq_true, if_false]
  rcases hD : (goContains nB "debug" || goContains nB "dbg") with _ | _ <;>
    rw [hdbg, hD] <;>
    rcases hE : isExecutableAsset B with _ | _ <;>
    rcases hS : decide (B.size < 100 * 1024 * 1024) with _ | _ <;>
    [skip; skip; skip; skip; skip; skip; skip; skip] <;>
    first
    | (have hA2 : ¬ (A.size < 100 * 1024 * 1024) := of_decide_eq_false (hsz.trans hS)
       have hB2 : ¬ (B.size < 100 * 1024 * 1024) := of_decide_eq_false hS
       simp only [hE, Bool.false_eq_true, if_false, if_true, if_neg hA2, if_neg hB2]
       linarith)
    | (have hA2 : A.size < 100 * 1024 * 1024 := of_decide_eq_true (hsz.trans hS)
       have hB2 : B.size < 100 * 1024 * 1024 := of_decide_eq_true hS
       simp only [hE, Bool.false_eq_true, if_false, if_true, if_pos hA2, if_pos hB2]
       linarith)

lemma matchCount_tar_pos (A : ReleaseAssets) (os arch : String) (extraWords : List String)
    (stem : List Char) (hA : (goToLower A.name).data = stem ++ (".tar.gz" : String).data) :
    assetMatchCount A os arch extraWords ≠ 0 := by
  unfold assetMatchCount
  have hmem : "tar" ∈ allPatternsOf os arch extraWords := by
    unfold allPatternsOf; simp
  have hcontains : goContains (goToLower A.name) (goToLower "tar") = true := by
    rw [show goToLower "tar" = "tar" from rfl]
    unfold goContains
    rw [hA]
    apply (subIn_iff _ _).mpr
    refine ⟨stem ++ ['.'], ['.', 'g', 'z'], ?_⟩
    rw [show (".tar.gz" : String).data = ['.', 't', 'a', 'r', '.', 'g', 'z'] from rfl,
        show ("tar" : String).data = ['t', 'a', 'r'] from rfl]
    simp
  have hpos : 0 < (allPatternsOf os arch extraWords).countP
      (fun p => goContains (goToLower A.name) (goToLower p)) :=
    List.countP_pos_iff.mpr ⟨"tar", hmem, by simp [hcontains]⟩
  omega

/-- C2 counterexample: the claim constrains only the filenames, so the other
asset fields are free; on linux/x86_64 the assets `tar-windows-arm64.tar.gz`
(200 MB, empty content type) and `tar-windows-arm64.deb` (1 KB, executable
content type) match the same single pattern and differ only in their filename
extension, yet the `.deb` asset scores strictly higher (0.301875 vs 0.2125),
so it would be selected in preference to the `.tar.gz` asset. -/
theorem tarGz_beats_deb_counterexample :
    (goToLower cexTar.name).data = cexStem ++ (".tar.gz" : String).data ∧
    (goToLower cexDeb.name).data = cexStem ++ (".deb" : String).data ∧
    assetMatchCount cexTar "linux" "x86_64" [] = assetMatchCount cexDeb "linux" "x86_64" [] ∧
    calculateAssetScore cexTar "linux" "x86_64" [] <
      calculateAssetScore cexDeb "linux" "x86_64" [] := by
  refine ⟨by decide, by decide, by decide, ?_⟩
  have hlen : (allPatternsOf "linux" "x86_64" []).length = 8 := by decide
  have hopl : otherPlatforms "linux" =
      some ["windows", "darwin", "macos", "win32", "win64", ".exe"] := rfl
  have hoar : otherArchs "x86_64" = some ["arm64", "aarch64", "arm", "i386", "i686"] := rfl
  have hpenT : ∀ q : ℚ, applyPlatformPenalties q cexTar "linux" "x86_64" = q * (1 / 10) * (1 / 2) := by
    intro q
    unfold applyPlatformPenalties
    rw [hopl, hoar]
    have c1 : (["windows", "darwin", "macos", "win32", "win64", ".exe"].any
        (fun p => goContains (goToLower cexTar.name) p)) = true := by decide
    have c2 : (["arm64", "aarch64", "arm", "i386", "i686"].any
        (fun a => goContains (goToLower cexTar.name) a)) = true := by decide
    simp only [c1, c2, if_true]
  have hpenD : ∀ q : ℚ, applyPlatformPenalties q cexDeb "linux" "x86_64" = q * (1 / 10) * (1 / 2) := by
    intro q
    unfold applyPlatformPenalties
    rw [hopl, hoar]
    have c1 : (["windows", "darwin", "macos", "win32", "win64", ".exe"].any
        (fun p => goContains (goToLower cexDeb.name) p)) = true := by decide
    have c2 : (["arm64", "aarch64", "arm", "i386", "i686"].any
        (fun a => goContains (goToLower cexDeb.name) a)) = true := by decide
    simp only [c1, c2, if_true]
  have hbonT : ∀ q : ℚ, applyAssetBonusesAndPenalties q cexTar (goToLower cexTar.name) =
      q * 2 + 1 / 5 := by
    intro q
    unfold applyAssetBonusesAndPenalties
    have harc : isArchiveAsset cexTar = true := by decide
    have hd : (goContains (goToLower cexTar.name) "debug" ||
        goContains (goToLower cexTar.name) "dbg") = false := by decide
    have hszf : ¬ (cexTar.size < 100 * 1024 * 1024) := by decide
    simp only [harc, if_true, Bool.or_true, hd, Bool.false_eq_true, if_false, if_neg hszf]
  have hbonD : ∀ q : ℚ, applyAssetBonusesAndPenalties q cexDeb (goToLower cexDeb.name) =
      q * (3 / 10) + 1 / 5 + 1 / 10 := by
    intro q
    unfold applyAssetBonusesAndPenalties
    have harc : isArchiveAsset cexDeb = false := by decide
    have hpkg : isPackageAsset cexDeb = true := by decide
    have hexe : isExecutableAsset cexDeb = true := by decide
    have hd : (goContains (goToLower cexDeb.name) "debug" ||
        goContains (goToLower cexDeb.name) "dbg") = false := by decide
    have hszt : cexDeb.size < 100 * 1024 * 1024 := by decide
    simp only [harc, hpkg, hexe, Bool.false_eq_true, if_false, if_true, Bool.true_or,
      hd, if_pos hszt]
  have hT : calculateAssetScore cexTar "linux" "x86_64" [] = 17 / 80 := by
    rw [calculateAssetScore_eq, if_neg (by decide : ¬ assetMatchCount cexTar "linux" "x86_64" [] = 0),
        show assetMatchCount cexTar "linux" "x86_64" [] = 1 from by decide, hlen, hpenT, hbonT]
    norm_num
  have hD2 : calculateAssetScore cexDeb "linux" "x86_64" [] = 483 / 1600 := by
    rw [calculateAssetScore_eq, if_neg (by decide : ¬ assetMatchCount cexDeb "linux" "x86_64" [] = 0),
        show assetMatchCount cexDeb "linux" "x86_64" [] = 1 from by decide, hlen, hpenD, hbonD]
    norm_num
  rw [hT, hD2]
  norm_num

/-- C2 amended: for every platform profile and every pair of assets whose
lower-cased filenames match the same number of patterns and differ only in
their extension, and which additionally fall in the same size class (both
below 100 MB or both at least 100 MB), the `.tar.gz` asset receives a strictly
higher final score than the `.deb` asset — so such a `.deb` asset is never
selected in preference to that `.tar.gz` asset. -/
theorem tarGz_beats_deb_same_size_class (os arch : String) (extraWords : List String)
    (A B : ReleaseAssets) (stem : List Char)
    (hA : (goToLower A.name).data = stem ++ (".tar.gz" : String).data)
    (hB : (goToLower B.name).data = stem ++ (".deb" : String).data)
    (hmc : assetMatchCount A os arch extraWords = assetMatchCount B os arch extraWords)
    (hsz : decide (A.size < 100 * 1024 * 1024) = decide (B.size < 100 * 1024 * 1024)) :
    calculateAssetScore B os arch extraWords < calculateAssetScore A os arch extraWords := by
  have htok : ∀ t ∈ masterTokens,
      goContains (goToLower A.name) t = goContains (goToLower B.name) t := by
    intro t ht
    unfold goContains
    rw [hA, hB]
    exact token_ext_eq t ht stem
  have hmcA : assetMatchCount A os arch extraWords ≠ 0 :=
    matchCount_tar_pos A os arch extraWords stem hA
  have hmcB : assetMatchCount B os arch extraWords ≠ 0 := hmc ▸ hmcA
  rw [calculateAssetScore_eq A, calculateAssetScore_eq B, if_neg hmcA, if_neg hmcB, ← hmc]
  set s : ℚ := (assetMatchCount A os arch extraWords : ℚ) /
    ((allPatternsOf os arch extraWords).length : ℚ) with hsdef
  have hspos : 0 < s := by
    apply div_pos
    · exact_mod_cast Nat.pos_of_ne_zero hmcA
    · have : 0 < (allPatternsOf os arch extraWords).length := by
        unfold allPatternsOf
        simp [List.length_append]
      exact_mod_cast this
  rw [show applyPlatformPenalties s B os arch = applyPlatformPenalties s A os arch from
    (penalties_eq s os arch A B htok).symm]
  have hs2pos : 0 < applyPlatformPenalties s A os arch := penalties_pos s hspos A os arch
  exact bonuses_lt (applyPlatformPenalties s A os arch) hs2pos A B
    (goToLower A.name) (goToLower B.name)
    (archive_of_tarGz A stem hA) (notArchive_of_deb B stem hB) (package_of_deb B stem hB)
    (by rw [htok "debug" (by decide), htok "dbg" (by decide)]) hsz

/-- C2 witness for the amended statement: equally-matching assets
`gron-tar-linux-amd64.tar.gz` and `gron-tar-linux-amd64.deb`, both 1 KB, on
linux/x86_64 — the `.deb` scores strictly lower. -/
theorem tarGz_beats_deb_same_size_class_witness :
    calculateAssetScore wAssetDeb "linux" "x86_64" [] <
      calculateAssetScore wAssetTar "linux" "x86_64" [] :=
  tarGz_beats_deb_same_size_class "linux" "x86_64" [] wAssetTar wAssetDeb wStem2
    (by decide) (by decide) (by decide) (by decide)
